import Mathlib

/-!
Verification of the persistence core of the Restaurants journal app
(`src/App.jsx`): the IndexedDB-backed Record Store and Blob Store, the
export/import codec, draft saving, entry deletion, and the image
resizing step.  Each JavaScript function is shallowly embedded as an
executable Lean definition; browser platform primitives (IndexedDB
object stores, `FileReader.readAsDataURL`, `fetch` on a data URL) are
modelled by their documented behaviour.
-/

/-- One element of `Entry.photos`: the `{ id, note, exifDate }` objects built
by `handleFiles` / `captureFromVideo`.  `id` is a foreign key into the photo
blob store. -/
structure PhotoRef where
  id : String
  note : String
  exifDate : Option Int
deriving DecidableEq, Repr

/-- A journal record as stored in the `restaurants` IndexedDB object store
(keyPath `id`).  Coordinates are JavaScript numbers, modelled exactly as
rationals; they may be absent until the user places a pin. -/
structure Entry where
  id : String
  name : String
  rating : Nat
  notes : String
  photos : List PhotoRef
  lat : Option Rat
  lng : Option Rat
  favorite : Bool
  createdAt : Int
  visits : List Int
deriving DecidableEq, Repr

/-- A binary photo payload: the JavaScript `Blob` with its byte content and
declared media type.  Bytes are naturals; a well-formed blob has every byte
below 256. -/
structure PBlob where
  content : List Nat
  type : String
deriving DecidableEq, Repr

/-- Rows of the `photos` IndexedDB object store are `{ id, blob, type }`
(see `putPhotoBlob` in the source); we keep them as key/blob pairs, the
declared `type` field being exactly `blob.type`. -/
abbrev BlobRow := String × PBlob

/-- The durable IndexedDB state: the `restaurants` object store and the
`photos` object store, both keyed by the string field `id`. -/
structure Store where
  restaurants : List Entry
  photos : List BlobRow
deriving DecidableEq, Repr

/-- Models `IDBObjectStore.put` on a store whose rows are keyed by `key`:
the row with the same key is replaced in full, otherwise the row is
appended.  Keys in an IndexedDB object store are unique, so replacing the
first matching row is exact. -/
def keyedPut (key : α → String) (x : α) : List α → List α
  | [] => [x]
  | y :: l => if key y = key x then x :: l else y :: keyedPut key x l

/-- Models `IDBObjectStore.get`: the row stored under `i`, if any. -/
def keyedLookup (key : α → String) (i : String) : List α → Option α
  | [] => none
  | y :: l => if key y = i then some y else keyedLookup key i l

/-- Models `IDBObjectStore.delete`: removes the row stored under `i`;
deleting an unknown key is a no-op. -/
def keyedDelete (key : α → String) (i : String) : List α → List α
  | [] => []
  | y :: l => if key y = i then l else y :: keyedDelete key i l

/-- Source `putRestaurants(list)` body: one readwrite transaction that
`put`s each record in order (`for (const r of list) await tx.store.put(r)`).
This is the committed end state. -/
def putRestaurants (recs : List Entry) (list : List Entry) : List Entry :=
  list.foldl (fun acc r => keyedPut Entry.id r acc) recs

/-- Lookup of a record by id in the `restaurants` store. -/
def recLookup (recs : List Entry) (i : String) : Option Entry :=
  keyedLookup Entry.id i recs

/-- Source `getAllRestaurants()`: `db.getAll(STORE_RESTAURANTS)` returns
every stored record (the spec's `loadAll`). -/
def getAllRestaurants (st : Store) : List Entry :=
  st.restaurants

/-- Source `deleteRestaurantRow(id)`: `db.delete(STORE_RESTAURANTS, id)`.
Note: this function is defined in the source but never called. -/
def deleteRestaurantRow (recs : List Entry) (i : String) : List Entry :=
  keyedDelete Entry.id i recs

/-- Source `putPhotoBlob(id, blob)`: `db.put(STORE_PHOTOS, { id, blob, type: blob.type })`. -/
def putPhotoBlob (bs : List BlobRow) (i : String) (b : PBlob) : List BlobRow :=
  keyedPut Prod.fst (i, b) bs

/-- Source `getPhotoBlob(id)`: `const v = await db.get(STORE_PHOTOS, id);
return v ? v.blob : null`.  The returned blob carries its media type. -/
def getPhotoBlob (bs : List BlobRow) (i : String) : Option PBlob :=
  (keyedLookup Prod.fst i bs).map Prod.snd

/-- Source `deletePhotoBlob(id)`: `db.delete(STORE_PHOTOS, id)`. -/
def deletePhotoBlob (bs : List BlobRow) (i : String) : List BlobRow :=
  keyedDelete Prod.fst i bs

/-- The transactional run of `putRestaurants`'s loop against the pending
view of its single readwrite transaction: each `put` may be rejected by the
storage engine (`failing`), in which case the transaction aborts and the
pending writes are discarded. -/
def txPuts (failing : Entry → Bool) : List Entry → List Entry → Option (List Entry)
  | pending, [] => some pending
  | pending, r :: rest =>
      if failing r then none else txPuts failing (keyedPut Entry.id r pending) rest

/-- Source `putRestaurants(list)` with storage failures modelled: the loop
of `put`s runs inside one transaction and `await tx.done` commits it; if
any individual `put` fails the whole transaction aborts, nothing becomes
durable, and the caller's awaited promise rejects (`Except.error`). -/
def putRestaurantsTx (recs : List Entry) (list : List Entry)
    (failing : Entry → Bool) : Except Unit (List Entry) :=
  match txPuts failing recs list with
  | none => .error ()
  | some committed => .ok committed

/-- The standard base64 alphabet, as used by `FileReader.readAsDataURL`
when it serialises a blob into a `data:` URL. -/
def b64Alphabet : List Char :=
  ['A', 'B', 'C', 'D', 'E', 'F', 'G', 'H', 'I', 'J', 'K', 'L', 'M',
   'N', 'O', 'P', 'Q', 'R', 'S', 'T', 'U', 'V', 'W', 'X', 'Y', 'Z',
   'a', 'b', 'c', 'd', 'e', 'f', 'g', 'h', 'i', 'j', 'k', 'l', 'm',
   'n', 'o', 'p', 'q', 'r', 's', 't', 'u', 'v', 'w', 'x', 'y', 'z',
   '0', '1', '2', '3', '4', '5', '6', '7', '8', '9', '+', '/']

/-- The alphabet character for a 6-bit value. -/
def sextetChar (n : Nat) : Char :=
  b64Alphabet.getD n 'A'

/-- The 6-bit value of an alphabet character. -/
def charSextet (c : Char) : Nat :=
  b64Alphabet.indexOf c

/-- Base64 encoding of a byte sequence, three bytes to four characters,
with `=` padding, as produced inside a `data:...;base64,` URL. -/
def encodeB64 : List Nat → List Char
  | [] => []
  | [b1] =>
      [sextetChar (b1 / 4), sextetChar (b1 % 4 * 16), '=', '=']
  | [b1, b2] =>
      [sextetChar (b1 / 4), sextetChar (b1 % 4 * 16 + b2 / 16),
       sextetChar (b2 % 16 * 4), '=']
  | b1 :: b2 :: b3 :: rest =>
      sextetChar (b1 / 4) :: sextetChar (b1 % 4 * 16 + b2 / 16) ::
      sextetChar (b2 % 16 * 4 + b3 / 64) :: sextetChar (b3 % 64) ::
      encodeB64 rest

/-- Base64 decoding, four characters to three bytes, honouring `=`
padding — the decoding `fetch` performs on a base64 `data:` URL. -/
def decodeB64 : List Char → List Nat
  | c1 :: c2 :: c3 :: c4 :: rest =>
      if c3 = '=' then
        [charSextet c1 * 4 + charSextet c2 / 16]
      else if c4 = '=' then
        [charSextet c1 * 4 + charSextet c2 / 16,
         charSextet c2 % 16 * 16 + charSextet c3 / 4]
      else
        (charSextet c1 * 4 + charSextet c2 / 16) ::
        (charSextet c2 % 16 * 16 + charSextet c3 / 4) ::
        (charSextet c3 % 4 * 64 + charSextet c4) :: decodeB64 rest
  | _ => []

/-- A `data:<mediaType>;base64,<payload>` URL, as a media type plus the
base64 character payload. -/
structure DataURL where
  mediaType : String
  payload : List Char
deriving DecidableEq, Repr

/-- Platform primitive `FileReader.readAsDataURL(blob)` (used by
`exportJson`): serialises the blob's bytes as base64 under its media
type. -/
def readAsDataURL (b : PBlob) : DataURL :=
  { mediaType := b.type, payload := encodeB64 b.content }

/-- Platform primitive `await (await fetch(dataURL)).blob()` (used by
`importJsonFile`): decodes the base64 payload back into a blob whose type
is the URL's media type. -/
def fetchDataURL (u : DataURL) : PBlob :=
  { content := decodeB64 u.payload, type := u.mediaType }

/-- One `{ id, dataURL }` element of the archive's `photos` array. -/
structure BlobDump where
  id : String
  dataURL : DataURL
deriving DecidableEq, Repr

/-- The export payload `{ version: 8, restaurants, photos }`. -/
structure Archive where
  version : Nat
  restaurants : List Entry
  photos : List BlobDump
deriving DecidableEq, Repr

/-- JavaScript `Array.from(new Set(l))`: deduplication keeping first
occurrences in insertion order. -/
def insertionDedup (l : List String) : List String :=
  l.foldl (fun acc x => if x ∈ acc then acc else acc ++ [x]) []

/-- Source `exportJson()`: collect the distinct photo ids referenced by the
journal, fetch each blob (silently skipping absent ids), encode each as a
data URL, and emit `{ version: 8, restaurants, photos }`.  `restaurants` is
the journal list, serialised verbatim. -/
def exportJson (restaurants : List Entry) (bs : List BlobRow) : Archive :=
  let allIds := insertionDedup (restaurants.flatMap fun r => r.photos.map (·.id))
  { version := 8,
    restaurants := restaurants,
    photos := allIds.filterMap fun i =>
      (getPhotoBlob bs i).map fun b => { id := i, dataURL := readAsDataURL b } }

/-- The result of `JSON.parse` on an import document, reduced to the two
fields `importJsonFile` inspects: each is `some` exactly when the field is
present and `Array.isArray` accepts it. -/
structure ParsedDoc where
  restaurants : Option (List Entry)
  photos : Option (List BlobDump)
deriving DecidableEq, Repr

/-- The archive document produced by `exportJson`, re-read by
`JSON.parse`: both arrays are present in the expected shape. -/
def archiveDoc (a : Archive) : ParsedDoc :=
  { restaurants := some a.restaurants, photos := some a.photos }

/-- A store operation issued by the import algorithm, in issue order. -/
inductive StoreOp where
  | photoPut (id : String) (b : PBlob)
  | recBatchPut (list : List Entry)
deriving DecidableEq, Repr

/-- Effect of one issued operation on the durable state. -/
def applyOp (st : Store) : StoreOp → Store
  | .photoPut i b => { st with photos := putPhotoBlob st.photos i b }
  | .recBatchPut l => { st with restaurants := putRestaurants st.restaurants l }

/-- The sequence of store operations `importJsonFile` issues for a parsed
document: nothing at all unless both `parsed.restaurants` and
`parsed.photos` are arrays; otherwise one `putPhotoBlob` per archive blob
(decoded from its data URL, under its original id), in order, followed by
the single `putRestaurants` batch. -/
def importOps (doc : ParsedDoc) : List StoreOp :=
  match doc.restaurants, doc.photos with
  | some rs, some ps =>
      ps.map (fun p => .photoPut p.id (fetchDataURL p.dataURL)) ++ [.recBatchPut rs]
  | _, _ => []

/-- Source `importJsonFile(file)` after `FileReader.readAsText` and
`JSON.parse`: runs `importOps` against the store and shows the `Imported`
toast on success.  A document failing the shape check (or failing to
parse) reaches no write and produces no signal at all — the `catch {}` is
empty and the `if` has no `else`. -/
def importJsonFile (st : Store) (doc : ParsedDoc) : Store × Option String :=
  match doc.restaurants, doc.photos with
  | some _, some _ => ((importOps doc).foldl applyOp st, some "Imported")
  | _, _ => (st, none)

/-- The application state the handlers close over: the React `restaurants`
list plus the durable IndexedDB stores. -/
structure AppState where
  ui : List Entry
  store : Store
deriving DecidableEq, Repr

/-- Source `persist(list)`: `setRestaurants(list); await putRestaurants(list)` —
replaces the in-memory list and upserts every listed record into the
`restaurants` object store. -/
def persist (app : AppState) (list : List Entry) : AppState :=
  { ui := list,
    store := { app.store with
      restaurants := putRestaurants app.store.restaurants list } }

/-- The new-or-edit form draft.  In the source a draft starts from
`startNew` (`id: undefined`) or from an existing record via `setDraft(r)`
(`id` set), so an edit draft carries every Entry field. -/
structure Draft where
  id : Option String
  name : String
  rating : Nat
  notes : String
  photos : List PhotoRef
  lat : Option Rat
  lng : Option Rat
  favorite : Bool
  createdAt : Int
  visits : List Int
deriving DecidableEq, Repr

/-- The list `saveDraft` persists: a fresh record (trimmed name, visits
defaulting to `[now]` when the draft has none) prepended on create, or a
map over the list replacing the record with the draft's id by
`{ ...x, ...draft }` with trimmed name and visits falling back to the old
record's visits when the draft has none. -/
def saveDraftList (ui : List Entry) (draft : Draft) (now : Int)
    (newId : String) : List Entry :=
  match draft.id with
  | none =>
      { id := newId, name := draft.name.trim, rating := draft.rating,
        notes := draft.notes, photos := draft.photos, lat := draft.lat,
        lng := draft.lng, favorite := draft.favorite, createdAt := now,
        visits := if draft.visits.isEmpty then [now] else draft.visits } :: ui
  | some did =>
      ui.map fun x =>
        if x.id = did then
          { id := did, name := draft.name.trim, rating := draft.rating,
            notes := draft.notes, photos := draft.photos, lat := draft.lat,
            lng := draft.lng, favorite := draft.favorite,
            createdAt := draft.createdAt,
            visits := if draft.visits.isEmpty then x.visits else draft.visits }
        else x

/-- Source `saveDraft()`: returns untouched when the trimmed name is empty,
otherwise persists `saveDraftList`.  `now` is `Date.now()` and `newId` the
fresh `uuidv4()`. -/
def saveDraft (app : AppState) (draft : Draft) (now : Int)
    (newId : String) : AppState :=
  if draft.name.trim = "" then app
  else persist app (saveDraftList app.ui draft now newId)

/-- Source `deleteRestaurantAll(id)`: looks the record up in the in-memory
list, persists the filtered list (note: `persist` only ever `put`s — the
source never calls its own `deleteRestaurantRow`), and fires
`deletePhotoBlob` for every photo of the removed record. -/
def deleteRestaurantAll (app : AppState) (i : String) : AppState :=
  let r := keyedLookup Entry.id i app.ui
  let updated := app.ui.filter fun x => x.id ≠ i
  let app1 := persist app updated
  match r with
  | some r =>
      { app1 with store := { app1.store with
          photos := r.photos.foldl (fun bs p => deletePhotoBlob bs p.id)
            app1.store.photos } }
  | none => app1

/-- Output dimensions of `compressImage(fileOrBlob, maxSide, quality)`:
`scale = Math.min(1, maxSide / Math.max(w, h))`, then each edge is
`Math.max(1, Math.round(edge * scale))`.  JavaScript numbers are modelled
exactly as rationals; `Math.round` is round-half-up, which is Mathlib's
`round` on `ℚ`. -/
def compressDims (width height : Nat) (maxSide : Nat) : Nat × Nat :=
  let scale : ℚ := min 1 ((maxSide : ℚ) / (max width height : ℕ))
  (max 1 (round ((width : ℚ) * scale)).toNat,
   max 1 (round ((height : ℚ) * scale)).toNat)

/-- Verification helper: folding `keyedPut` of each element of `l` (in
order) into an existing table `acc` — the shape shared by
`putRestaurants` and the import loop's blob puts. -/
def keyedPutFold (key : α → String) (acc : List α) (l : List α) : List α :=
  l.foldl (fun a x => keyedPut key x a) acc

/-- Verification helper: the last element of `l` whose key is `i`, i.e.
the surviving write after upserting `l` in order. -/
def lastWith (key : α → String) (i : String) : List α → Option α
  | [] => none
  | x :: l =>
      match lastWith key i l with
      | some z => some z
      | none => if key x = i then some x else none

/-- Concrete fixture: an entry referencing photo blob `p1`. -/
def entryA : Entry :=
  { id := "a", name := "Alice Diner", rating := 4, notes := "good",
    photos := [{ id := "p1", note := "", exifDate := none }],
    lat := none, lng := none, favorite := false, createdAt := 0, visits := [0] }

/-- Concrete fixture: an entry with no photos. -/
def entryB : Entry :=
  { id := "b", name := "Bistro", rating := 2, notes := "",
    photos := [], lat := none, lng := none, favorite := true,
    createdAt := 1, visits := [1] }

/-- Concrete fixture: the spec's existing entry with `id = X, rating = 3`. -/
def entryX3 : Entry :=
  { id := "X", name := "Xpress", rating := 3, notes := "n",
    photos := [], lat := none, lng := none, favorite := false,
    createdAt := 5, visits := [5] }

/-- Concrete fixture: `entryX3` with only the rating changed to 5. -/
def entryX5 : Entry :=
  { id := "X", name := "Xpress", rating := 5, notes := "n",
    photos := [], lat := none, lng := none, favorite := false,
    createdAt := 5, visits := [5] }

/-- Concrete fixture: an entry whose `visits` list is empty. -/
def entryNoVisits : Entry :=
  { id := "nv", name := "NoVisits", rating := 0, notes := "",
    photos := [], lat := none, lng := none, favorite := false,
    createdAt := 9, visits := [] }

/-- Concrete fixture: blob content `C` stored at id `p1`. -/
def blobC : PBlob :=
  { content := [1, 2, 250], type := "image/jpeg" }

/-- Concrete fixture: an orphan blob stored at id `p2`. -/
def blobD : PBlob :=
  { content := [7], type := "image/png" }

/-- Section of theorems.  First, the base64 codec round-trip. -/
theorem charSextet_sextetChar : ∀ n, n < 64 → charSextet (sextetChar n) = n := by
  decide

/-- No alphabet character is the padding character. -/
theorem sextetChar_ne_pad : ∀ n, n < 64 → sextetChar n ≠ '=' := by
  decide

/-- Decoding inverts encoding on byte sequences. -/
theorem decodeB64_encodeB64 :
    ∀ l : List Nat, (∀ b ∈ l, b < 256) → decodeB64 (encodeB64 l) = l
  | [], _ => rfl
  | [b1], h => by
      have hb1 : b1 < 256 := h b1 (by simp)
      rw [show encodeB64 [b1]
            = [sextetChar (b1 / 4), sextetChar (b1 % 4 * 16), '=', '='] from rfl,
          decodeB64, if_pos rfl,
          charSextet_sextetChar _ (by omega), charSextet_sextetChar _ (by omega),
          show b1 / 4 * 4 + b1 % 4 * 16 / 16 = b1 by omega]
  | [b1, b2], h => by
      have hb1 : b1 < 256 := h b1 (by simp)
      have hb2 : b2 < 256 := h b2 (by simp)
      rw [show encodeB64 [b1, b2]
            = [sextetChar (b1 / 4), sextetChar (b1 % 4 * 16 + b2 / 16),
               sextetChar (b2 % 16 * 4), '='] from rfl,
          decodeB64, if_neg (sextetChar_ne_pad _ (by omega)), if_pos rfl,
          charSextet_sextetChar _ (by omega), charSextet_sextetChar _ (by omega),
          charSextet_sextetChar _ (by omega),
          show b1 / 4 * 4 + (b1 % 4 * 16 + b2 / 16) / 16 = b1 by omega,
          show (b1 % 4 * 16 + b2 / 16) % 16 * 16 + b2 % 16 * 4 / 4 = b2 by omega]
  | b1 :: b2 :: b3 :: rest, h => by
      have hb1 : b1 < 256 := h b1 (by simp)
      have hb2 : b2 < 256 := h b2 (by simp)
      have hb3 : b3 < 256 := h b3 (by simp)
      have ih := decodeB64_encodeB64 rest (fun b hb => h b (by simp [hb]))
      rw [show encodeB64 (b1 :: b2 :: b3 :: rest)
            = sextetChar (b1 / 4) :: sextetChar (b1 % 4 * 16 + b2 / 16) ::
              sextetChar (b2 % 16 * 4 + b3 / 64) :: sextetChar (b3 % 64) ::
              encodeB64 rest from rfl,
          decodeB64, if_neg (sextetChar_ne_pad _ (by omega)),
          if_neg (sextetChar_ne_pad _ (by omega)),
          charSextet_sextetChar _ (by omega), charSextet_sextetChar _ (by omega),
          charSextet_sextetChar _ (by omega), charSextet_sextetChar _ (by omega),
          ih,
          show b1 / 4 * 4 + (b1 % 4 * 16 + b2 / 16) / 16 = b1 by omega,
          show (b1 % 4 * 16 + b2 / 16) % 16 * 16 + (b2 % 16 * 4 + b3 / 64) / 4 = b2 by omega,
          show (b2 % 16 * 4 + b3 / 64) % 4 * 64 + b3 % 64 = b3 by omega]

/-- Fetching the data URL written for a blob returns the blob unchanged. -/
theorem fetchDataURL_readAsDataURL (b : PBlob) (hb : ∀ x ∈ b.content, x < 256) :
    fetchDataURL (readAsDataURL b) = b := by
  simp [fetchDataURL, readAsDataURL, decodeB64_encodeB64 b.content hb]

/-- Lookup after a single keyed put. -/
theorem keyedLookup_keyedPut (key : α → String) (x : α) (l : List α) (i : String) :
    keyedLookup key i (keyedPut key x l) =
      if key x = i then some x else keyedLookup key i l := by
  induction l with
  | nil =>
      by_cases hxi : key x = i <;> simp [keyedPut, keyedLookup, hxi]
  | cons y l ih =>
      by_cases hyx : key y = key x
      · by_cases hxi : key x = i
        · simp [keyedPut, keyedLookup, hyx, hxi]
        · have h2 : ¬ i = key x := fun hc => hxi hc.symm
          have hyi : ¬ key y = i := by rw [hyx]; exact hxi
          simp [keyedPut, keyedLookup, hyx, hxi, h2, hyi]
      · by_cases hyi : key y = i
        · have hxi : ¬ key x = i := fun hc => hyx (by rw [hyi, hc])
          have h2 : ¬ i = key x := fun hc => hxi hc.symm
          simp [keyedPut, keyedLookup, hyx, hyi, hxi, h2]
        · simp [keyedPut, keyedLookup, hyx, hyi, ih]

/-- Every row of a table after a keyed put is the put row or an old row. -/
theorem mem_keyedPut (key : α → String) (x : α) (l : List α) (z : α) :
    z ∈ keyedPut key x l → z = x ∨ z ∈ l := by
  induction l with
  | nil => simp [keyedPut]
  | cons y l ih =>
      by_cases hyx : key y = key x
      · simp only [keyedPut, if_pos hyx, List.mem_cons]
        rintro (rfl | hz)
        · exact Or.inl rfl
        · exact Or.inr (Or.inr hz)
      · simp only [keyedPut, if_neg hyx, List.mem_cons]
        rintro (rfl | hz)
        · exact Or.inr (Or.inl rfl)
        · rcases ih hz with h | h
          · exact Or.inl h
          · exact Or.inr (Or.inr h)

/-- A keyed put of a row whose key is absent appends the row. -/
theorem keyedPut_of_fresh (key : α → String) (x : α) (l : List α)
    (h : ∀ y ∈ l, key y ≠ key x) : keyedPut key x l = l ++ [x] := by
  induction l with
  | nil => simp [keyedPut]
  | cons y l ih =>
      have hy : key y ≠ key x := h y (by simp)
      simp only [keyedPut, if_neg hy, List.cons_append, List.cons.injEq, true_and]
      exact ih fun z hz => h z (by simp [hz])

/-- A keyed put of a row already present (under unique keys) is a no-op. -/
theorem keyedPut_of_mem (key : α → String) (x : α) (l : List α)
    (hx : x ∈ l) (hnd : (l.map key).Nodup) : keyedPut key x l = l := by
  induction l with
  | nil => simp at hx
  | cons y l ih =>
      rw [List.map_cons, List.nodup_cons] at hnd
      obtain ⟨hyk, hnd'⟩ := hnd
      rcases List.mem_cons.mp hx with rfl | hx'
      · simp [keyedPut]
      · have hyx : key y ≠ key x := by
          intro hc
          exact hyk (hc ▸ List.mem_map_of_mem key hx')
        simp [keyedPut, hyx, ih hx' hnd']

/-- An element returned by `lastWith` is a member with the sought key. -/
theorem lastWith_mem (key : α → String) (i : String) (l : List α) (z : α)
    (h : lastWith key i l = some z) : z ∈ l ∧ key z = i := by
  induction l with
  | nil => simp [lastWith] at h
  | cons y l ih =>
      simp only [lastWith] at h
      cases hl : lastWith key i l with
      | some w =>
          rw [hl] at h
          obtain rfl : w = z := by simpa using h
          rcases ih hl with ⟨hm, hk⟩
          exact ⟨by simp [hm], hk⟩
      | none =>
          rw [hl] at h
          by_cases hy : key y = i
          · rw [if_pos hy] at h
            obtain rfl : y = z := by simpa using h
            exact ⟨by simp, hy⟩
          · rw [if_neg hy] at h
            simp at h

/-- If no element has the sought key, `lastWith` finds nothing. -/
theorem lastWith_eq_none (key : α → String) (i : String) (l : List α)
    (h : ∀ x ∈ l, key x ≠ i) : lastWith key i l = none := by
  induction l with
  | nil => rfl
  | cons y l ih =>
      simp only [lastWith, ih fun x hx => h x (by simp [hx])]
      exact if_neg (h y (by simp))

/-- Under unique keys, `lastWith` finds the unique member with that key. -/
theorem lastWith_of_mem (key : α → String) (i : String) (l : List α) (x : α)
    (hx : x ∈ l) (hk : key x = i) (hnd : (l.map key).Nodup) :
    lastWith key i l = some x := by
  induction l with
  | nil => simp at hx
  | cons y l ih =>
      rw [List.map_cons, List.nodup_cons] at hnd
      obtain ⟨hyk, hnd'⟩ := hnd
      rcases List.mem_cons.mp hx with rfl | hx'
      · have hnone : lastWith key i l = none := by
          apply lastWith_eq_none
          intro z hz hc
          apply hyk
          have hmem : key z ∈ List.map key l := List.mem_map_of_mem key hz
          rwa [hc, ← hk] at hmem
        simp [lastWith, hnone, hk]
      · simp [lastWith, ih hx' hnd']

/-- Lookup after folding keyed puts: the last written row with that key
wins; keys untouched by the batch read as before. -/
theorem keyedLookup_keyedPutFold (key : α → String) (l : List α)
    (acc : List α) (i : String) :
    keyedLookup key i (keyedPutFold key acc l) =
      match lastWith key i l with
      | some z => some z
      | none => keyedLookup key i acc := by
  induction l generalizing acc with
  | nil => rfl
  | cons x l ih =>
      have step : keyedPutFold key acc (x :: l) =
          keyedPutFold key (keyedPut key x acc) l := rfl
      rw [step, ih]
      cases hl : lastWith key i l with
      | some z => simp [lastWith, hl]
      | none =>
          simp only [lastWith, hl, keyedLookup_keyedPut]
          by_cases hx : key x = i <;> simp [hx]

/-- Folding keyed puts whose keys are fresh and pairwise distinct appends
the rows in order. -/
theorem keyedPutFold_of_disjoint (key : α → String) (l : List α) (acc : List α)
    (hnd : (l.map key).Nodup)
    (hdisj : ∀ x ∈ l, ∀ y ∈ acc, key y ≠ key x) :
    keyedPutFold key acc l = acc ++ l := by
  induction l generalizing acc with
  | nil => simp [keyedPutFold]
  | cons x l ih =>
      rw [List.map_cons, List.nodup_cons] at hnd
      obtain ⟨hxk, hnd'⟩ := hnd
      have step : keyedPutFold key acc (x :: l) =
          keyedPutFold key (keyedPut key x acc) l := rfl
      rw [step, keyedPut_of_fresh key x acc (fun y hy => hdisj x (by simp) y hy)]
      have hdisj' : ∀ z ∈ l, ∀ y ∈ acc ++ [x], key y ≠ key z := by
        intro z hz y hy hc
        rcases List.mem_append.mp hy with hy' | hy'
        · exact hdisj z (by simp [hz]) y hy' hc
        · obtain rfl : y = x := by simpa using hy'
          exact hxk (hc ▸ List.mem_map_of_mem key hz)
      rw [ih (acc ++ [x]) hnd' hdisj', List.append_assoc]
      rfl

/-- Re-upserting rows already present under unique keys changes nothing. -/
theorem keyedPutFold_self (key : α → String) (l : List α) (acc : List α)
    (hsub : ∀ x ∈ l, x ∈ acc) (hnd : (acc.map key).Nodup) :
    keyedPutFold key acc l = acc := by
  induction l with
  | nil => rfl
  | cons x l ih =>
      have step : keyedPutFold key acc (x :: l) =
          keyedPutFold key (keyedPut key x acc) l := rfl
      rw [step, keyedPut_of_mem key x acc (hsub x (by simp)) hnd]
      exact ih fun z hz => hsub z (by simp [hz])

/-- Rows after a fold of keyed puts come from the old table or the batch. -/
theorem mem_keyedPutFold (key : α → String) (l : List α) (acc : List α) (z : α)
    (h : z ∈ keyedPutFold key acc l) : z ∈ acc ∨ z ∈ l := by
  induction l generalizing acc with
  | nil => exact Or.inl h
  | cons x l ih =>
      have step : keyedPutFold key acc (x :: l) =
          keyedPutFold key (keyedPut key x acc) l := rfl
      rw [step] at h
      rcases ih (keyedPut key x acc) h with h' | h'
      · rcases mem_keyedPut key x acc z h' with h'' | h''
        · exact Or.inr (by simp [h''])
        · exact Or.inl h''
      · exact Or.inr (by simp [h'])

/-- Unfolds `putRestaurants` to the generic fold. -/
theorem putRestaurants_eq_fold (recs list : List Entry) :
    putRestaurants recs list = keyedPutFold Entry.id recs list := rfl

/-- What a shape-valid import does to the store: every archive blob is
decoded and upserted into the photo store under its own id, and the
archive's entries are batch-upserted into the restaurants store. -/
theorem importJsonFile_eq (st : Store) (rs : List Entry) (ps : List BlobDump) :
    importJsonFile st ⟨some rs, some ps⟩ =
      ({ restaurants := putRestaurants st.restaurants rs,
         photos := keyedPutFold Prod.fst st.photos
           (ps.map fun p => (p.id, fetchDataURL p.dataURL)) }, some "Imported") := by
  have foldPhotos : ∀ (prs : List (String × PBlob)) (s : Store),
      (prs.map fun pr => StoreOp.photoPut pr.1 pr.2).foldl applyOp s =
        { restaurants := s.restaurants,
          photos := keyedPutFold Prod.fst s.photos prs } := by
    intro prs
    induction prs with
    | nil => intro s; rfl
    | cons pr prs ih =>
        intro s
        rw [List.map_cons, List.foldl_cons, ih]
        rfl
  have hmm : (ps.map fun p => StoreOp.photoPut p.id (fetchDataURL p.dataURL)) =
      ((ps.map fun p => (p.id, fetchDataURL p.dataURL)).map
        fun pr => StoreOp.photoPut pr.1 pr.2) := by
    rw [List.map_map]
    rfl
  show (((ps.map fun p => StoreOp.photoPut p.id (fetchDataURL p.dataURL)) ++
      [StoreOp.recBatchPut rs]).foldl applyOp st, some "Imported") = _
  rw [List.foldl_append, hmm, foldPhotos]
  rfl

/-- Membership in the insertion-ordered deduplication. -/
theorem mem_insertionDedup (l : List String) (x : String) :
    x ∈ insertionDedup l ↔ x ∈ l := by
  have aux : ∀ (l acc : List String) (x : String),
      (x ∈ l.foldl (fun acc y => if y ∈ acc then acc else acc ++ [y]) acc) ↔
        x ∈ acc ∨ x ∈ l := by
    intro l
    induction l with
    | nil => intro acc x; simp
    | cons y l ih =>
        intro acc x
        rw [List.foldl_cons]
        by_cases hy : y ∈ acc
        · rw [if_pos hy, ih]
          simp only [List.mem_cons]
          constructor
          · rintro (h | h)
            · exact Or.inl h
            · exact Or.inr (Or.inr h)
          · rintro (h | rfl | h)
            · exact Or.inl h
            · exact Or.inl hy
            · exact Or.inr h
        · rw [if_neg hy, ih]
          simp [List.mem_append, List.mem_cons, or_assoc]
  rw [insertionDedup, aux]
  simp

/-- The insertion-ordered deduplication has no duplicates. -/
theorem insertionDedup_nodup (l : List String) : (insertionDedup l).Nodup := by
  have aux : ∀ (l acc : List String), acc.Nodup →
      (l.foldl (fun acc y => if y ∈ acc then acc else acc ++ [y]) acc).Nodup := by
    intro l
    induction l with
    | nil => intro acc h; exact h
    | cons y l ih =>
        intro acc hacc
        rw [List.foldl_cons]
        by_cases hy : y ∈ acc
        · rw [if_pos hy]; exact ih acc hacc
        · rw [if_neg hy]
          apply ih
          rw [List.nodup_append]
          refine ⟨hacc, List.nodup_singleton y, ?_⟩
          intro a ha hay
          obtain rfl : a = y := by simpa using hay
          exact hy ha
  exact aux l [] List.nodup_nil

/-- Keys of a filterMap whose results carry their argument as key. -/
theorem map_key_filterMap {β : Type} (f : String → Option β) (keyf : β → String)
    (hf : ∀ a b, f a = some b → keyf b = a) (l : List String) :
    (l.filterMap f).map keyf = l.filter fun a => (f a).isSome := by
  induction l with
  | nil => rfl
  | cons a l ih =>
      cases hfa : f a with
      | none => simp [List.filterMap_cons, hfa, List.filter_cons, ih]
      | some b => simp [List.filterMap_cons, hfa, List.filter_cons, ih, hf a b hfa]

/-- C10: importing an archive never deletes Record Store entries — any
entry stored under an id that does not occur in the archive's entries list
is still stored, unchanged, after `importJsonFile` runs. -/
theorem importJsonFile_preserves_unlisted (st : Store) (doc : ParsedDoc)
    (i : String) (e : Entry)
    (he : recLookup st.restaurants i = some e)
    (hnot : ∀ rs, doc.restaurants = some rs → ∀ r ∈ rs, r.id ≠ i) :
    recLookup (importJsonFile st doc).1.restaurants i = some e := by
  obtain ⟨ors, ops⟩ := doc
  cases ors with
  | none => cases ops <;> simpa [importJsonFile] using he
  | some rs =>
      cases ops with
      | none => simpa [importJsonFile] using he
      | some ps =>
          rw [importJsonFile_eq]
          show recLookup (putRestaurants st.restaurants rs) i = some e
          rw [recLookup, putRestaurants_eq_fold, keyedLookup_keyedPutFold,
              lastWith_eq_none Entry.id i rs (hnot rs rfl)]
          exact he

/-- Witness for C10 at a concrete store and archive. -/
theorem importJsonFile_preserves_unlisted_witness :
    recLookup (importJsonFile ⟨[entryA], []⟩
        ⟨some [entryB], some []⟩).1.restaurants "a" = some entryA :=
  importJsonFile_preserves_unlisted ⟨[entryA], []⟩ ⟨some [entryB], some []⟩
    "a" entryA (by decide)
    (by intro rs h; cases h; decide)

/-- Lookup misses when no row carries the sought key. -/
theorem keyedLookup_eq_none (key : α → String) (i : String) (l : List α)
    (h : ∀ x ∈ l, key x ≠ i) : keyedLookup key i l = none := by
  induction l with
  | nil => rfl
  | cons y l ih =>
      rw [keyedLookup, if_neg (h y (by simp))]
      exact ih fun x hx => h x (by simp [hx])

/-- C7: `getPhotoBlob` returns the stored binary payload together with its
media type for a stored id, and the explicit absent signal `none` — never
an error — for an id under which nothing is stored. -/
theorem getPhotoBlob_spec (bs : List BlobRow) (i : String) (b : PBlob) :
    (getPhotoBlob (putPhotoBlob bs i b) i = some b) ∧
    ((∀ row ∈ bs, row.1 ≠ i) → getPhotoBlob bs i = none) := by
  constructor
  · rw [getPhotoBlob, putPhotoBlob, keyedLookup_keyedPut]
    simp
  · intro h
    rw [getPhotoBlob, keyedLookup_eq_none Prod.fst i bs h]
    rfl

/-- Witness for C7: a put blob is read back in full, and an unknown id
reads as absent. -/
theorem getPhotoBlob_spec_witness :
    (getPhotoBlob (putPhotoBlob [("p2", blobD)] "p1" blobC) "p1" = some blobC) ∧
    (getPhotoBlob [("p2", blobD)] "p1" = none) :=
  ⟨(getPhotoBlob_spec [("p2", blobD)] "p1" blobC).1,
   (getPhotoBlob_spec [("p2", blobD)] "p1" blobC).2 (by decide)⟩

/-- The transaction loop aborts exactly when some put fails, and commits
the plain fold otherwise. -/
theorem txPuts_eq (failing : Entry → Bool) :
    ∀ (list pending : List Entry),
      txPuts failing pending list =
        if list.any failing then none else some (putRestaurants pending list) := by
  intro list
  induction list with
  | nil => intro pending; simp [txPuts, putRestaurants]
  | cons r rest ih =>
      intro pending
      cases hr : failing r with
      | true => simp [txPuts, hr]
      | false =>
          rw [txPuts, if_neg (by simp [hr]), ih]
          simp only [List.any_cons, hr, Bool.false_or]
          rfl

/-- C4: the batch upsert `putRestaurants` is all-or-nothing — it signals a
failure for the whole batch (and commits nothing) exactly when some
individual write fails, commits the fold otherwise, and on success each id
reads back as the last entry supplied for it: a new id is inserted and an
existing id is replaced in full, with no per-field merging, while ids not
in the batch are untouched. -/
theorem putRestaurantsTx_spec (recs list : List Entry) (failing : Entry → Bool) :
    (putRestaurantsTx recs list failing = Except.error () ↔ list.any failing = true) ∧
    (list.any failing = false →
      putRestaurantsTx recs list failing = Except.ok (putRestaurants recs list)) ∧
    (∀ i, recLookup (putRestaurants recs list) i =
      match lastWith Entry.id i list with
      | some e => some e
      | none => recLookup recs i) := by
  refine ⟨?_, ?_, ?_⟩
  · rw [putRestaurantsTx, txPuts_eq]
    cases h : list.any failing <;> simp [h]
  · intro h
    rw [putRestaurantsTx, txPuts_eq, h]
    rfl
  · intro i
    rw [recLookup, putRestaurants_eq_fold, keyedLookup_keyedPutFold]
    cases lastWith Entry.id i list <;> rfl

/-- Witness for C4 at the spec's example: upserting `{id: X, rating: 5}`
over a stored `{id: X, rating: 3}` succeeds and leaves exactly one record,
the new one. -/
theorem putRestaurantsTx_spec_witness :
    (putRestaurantsTx [entryX3] [entryX5] (fun _ => false) =
      Except.ok (putRestaurants [entryX3] [entryX5])) ∧
    (recLookup (putRestaurants [entryX3] [entryX5]) "X" = some entryX5) ∧
    (putRestaurants [entryX3] [entryX5] = [entryX5]) := by
  refine ⟨(putRestaurantsTx_spec [entryX3] [entryX5] (fun _ => false)).2.1 rfl, ?_, by decide⟩
  rw [(putRestaurantsTx_spec [entryX3] [entryX5] (fun _ => false)).2.2 "X"]
  decide

/-- C5: every blob of a shape-valid archive is decoded and put under its
original id by the import, and in the issued operation sequence every blob
put occurs at a strictly earlier position than the record-store batch: no
entry write is issued before all blob puts have been issued. -/
theorem importOps_blobs_before_entries (doc : ParsedDoc) (rs : List Entry)
    (ps : List BlobDump) (hdoc : doc = ⟨some rs, some ps⟩) :
    (∀ p ∈ ps, StoreOp.photoPut p.id (fetchDataURL p.dataURL) ∈ importOps doc) ∧
    (∀ (j k : Nat) (i1 : String) (b : PBlob) (l : List Entry),
      (importOps doc)[j]? = some (StoreOp.photoPut i1 b) →
      (importOps doc)[k]? = some (StoreOp.recBatchPut l) → j < k) := by
  subst hdoc
  have hops : importOps ⟨some rs, some ps⟩ =
      (ps.map fun p => StoreOp.photoPut p.id (fetchDataURL p.dataURL)) ++
        [StoreOp.recBatchPut rs] := rfl
  constructor
  · intro p hp
    rw [hops]
    exact List.mem_append_left _ (List.mem_map_of_mem _ hp)
  · intro j k i1 b l hj hk
    rw [hops] at hj hk
    have hjlt : j < ps.length := by
      by_contra hge
      push_neg at hge
      rw [List.getElem?_append_right (by simpa using hge)] at hj
      have : j - (ps.map fun p => StoreOp.photoPut p.id (fetchDataURL p.dataURL)).length = 0 := by
        by_contra h0
        rcases Nat.exists_eq_succ_of_ne_zero h0 with ⟨m, hm⟩
        rw [hm] at hj
        simp at hj
      rw [this] at hj
      simp at hj
    have hkge : ps.length ≤ k := by
      by_contra hlt
      push_neg at hlt
      rw [List.getElem?_append_left (by simpa using hlt)] at hk
      rw [List.getElem?_map] at hk
      cases hpk : ps[k]? with
      | none => rw [hpk] at hk; simp at hk
      | some p => rw [hpk] at hk; simp at hk
    omega

/-- Witness for C5: in a concrete one-blob archive the blob put is issued
(and, by the theorem, before the entry batch). -/
theorem importOps_blobs_before_entries_witness :
    StoreOp.photoPut "p1" (fetchDataURL (readAsDataURL blobC)) ∈
      importOps ⟨some [entryA], some [⟨"p1", readAsDataURL blobC⟩]⟩ := by
  have h := (importOps_blobs_before_entries
      ⟨some [entryA], some [⟨"p1", readAsDataURL blobC⟩]⟩
      [entryA] [⟨"p1", readAsDataURL blobC⟩] rfl).1
  exact h ⟨"p1", readAsDataURL blobC⟩ (by simp)

/-- C2 counterexample: at a concrete malformed document (its `restaurants`
field is not an array) against a concrete non-empty store, the run is
observationally a silent no-op: the state is unchanged and the result
carries no toast or error signal whatsoever — refuting the claim that a
malformed document produces a distinguishable malformed-archive error. -/
theorem importJsonFile_malformed_counterexample :
    importJsonFile ⟨[entryA], [("p1", blobC)]⟩ ⟨none, some []⟩ =
      (⟨[entryA], [("p1", blobC)]⟩, none) := rfl

/-- C2 amended: importing a document that lacks either list in the expected
shape performs no writes and leaves the store state completely unchanged,
but the failure is silent — the operation produces no distinguishable
error signal (its only success signal, the `Imported` toast, is absent). -/
theorem importJsonFile_malformed_silent (st : Store) (doc : ParsedDoc)
    (h : doc.restaurants = none ∨ doc.photos = none) :
    importJsonFile st doc = (st, none) := by
  obtain ⟨ors, ops⟩ := doc
  cases ors with
  | none => cases ops <;> rfl
  | some rs =>
      cases ops with
      | none => rfl
      | some ps => rcases h with h | h <;> simp at h

/-- Witness for C2's amended theorem at a concrete store and document. -/
theorem importJsonFile_malformed_silent_witness :
    importJsonFile ⟨[entryB], []⟩ ⟨some [], none⟩ = (⟨[entryB], []⟩, none) :=
  importJsonFile_malformed_silent ⟨[entryB], []⟩ ⟨some [], none⟩ (Or.inr rfl)

/-- A successful lookup returns a member row carrying the sought key. -/
theorem keyedLookup_mem (key : α → String) (i : String) (l : List α) (x : α)
    (h : keyedLookup key i l = some x) : x ∈ l ∧ key x = i := by
  induction l with
  | nil => simp [keyedLookup] at h
  | cons y l ih =>
      rw [keyedLookup] at h
      by_cases hy : key y = i
      · rw [if_pos hy] at h
        obtain rfl : y = x := by simpa using h
        exact ⟨by simp, hy⟩
      · rw [if_neg hy] at h
        rcases ih h with ⟨hm, hk⟩
        exact ⟨by simp [hm], hk⟩

/-- C1: exporting the journal and immediately importing the archive into
an empty Record Store and Blob Store reproduces an equivalent state:
`loadAll` returns the same entries with the same ids and field values, and
every blob id referenced by some entry and present before export reads
back from the new Blob Store with byte-identical content (the whole blob,
media type included, is equal). -/
theorem export_import_roundtrip (rs : List Entry) (bs : List BlobRow)
    (hnd : (rs.map Entry.id).Nodup)
    (hbytes : ∀ row ∈ bs, ∀ x ∈ row.2.content, x < 256) :
    getAllRestaurants (importJsonFile ⟨[], []⟩
        (archiveDoc (exportJson rs bs))).1 = rs ∧
    (∀ (i : String) (b : PBlob),
      (∃ r ∈ rs, ∃ ph ∈ r.photos, ph.id = i) →
      getPhotoBlob bs i = some b →
      getPhotoBlob (importJsonFile ⟨[], []⟩
        (archiveDoc (exportJson rs bs))).1.photos i = some b) := by
  have hallIds : insertionDedup (rs.flatMap fun r => r.photos.map (·.id)) =
      insertionDedup (rs.flatMap fun r => r.photos.map (·.id)) := rfl
  set allIds := insertionDedup (rs.flatMap fun r => r.photos.map (·.id)) with hall
  set f : String → Option BlobDump :=
    fun i => (getPhotoBlob bs i).map fun b => ⟨i, readAsDataURL b⟩ with hfdef
  set dumps := allIds.filterMap f with hdumps
  have harch : archiveDoc (exportJson rs bs) = ⟨some rs, some dumps⟩ := rfl
  rw [harch, importJsonFile_eq]
  have hrecs : putRestaurants ([] : List Entry) rs = rs := by
    rw [putRestaurants_eq_fold,
        keyedPutFold_of_disjoint Entry.id rs [] hnd (by simp)]
    simp
  constructor
  · exact hrecs
  · intro i b href hb
    have hfkey : ∀ (a : String) (d : BlobDump), f a = some d → d.id = a := by
      intro a d hd
      have hd' : ((getPhotoBlob bs a).map
          fun b => (⟨a, readAsDataURL b⟩ : BlobDump)) = some d := hd
      cases hg : getPhotoBlob bs a with
      | none => rw [hg] at hd'; simp at hd'
      | some b' =>
          rw [hg] at hd'
          obtain rfl : (⟨a, readAsDataURL b'⟩ : BlobDump) = d := by simpa using hd'
          rfl
    have hkeys : (dumps.map BlobDump.id).Nodup := by
      rw [hdumps, map_key_filterMap f BlobDump.id hfkey allIds]
      exact (insertionDedup_nodup _).filter _
    have hpairs : ((dumps.map fun p => (p.id, fetchDataURL p.dataURL)).map
        Prod.fst).Nodup := by
      rw [List.map_map]
      exact hkeys
    have hid : i ∈ allIds := by
      rw [hall, mem_insertionDedup]
      obtain ⟨r, hr, ph, hph, rfl⟩ := href
      exact List.mem_flatMap.mpr ⟨r, hr, List.mem_map_of_mem _ hph⟩
    have hdmem : (⟨i, readAsDataURL b⟩ : BlobDump) ∈ dumps := by
      rw [hdumps]
      refine List.mem_filterMap.mpr ⟨i, hid, ?_⟩
      have hfi : f i = ((getPhotoBlob bs i).map
          fun b => (⟨i, readAsDataURL b⟩ : BlobDump)) := rfl
      rw [hfi, hb]
      rfl
    have hbb : fetchDataURL (readAsDataURL b) = b := by
      apply fetchDataURL_readAsDataURL
      cases hlk : keyedLookup Prod.fst i bs with
      | none => rw [getPhotoBlob, hlk] at hb; simp at hb
      | some row =>
          rw [getPhotoBlob, hlk] at hb
          obtain rfl : row.2 = b := by simpa using hb
          exact hbytes row (keyedLookup_mem Prod.fst i bs row hlk).1
    have hpmem : (i, b) ∈ dumps.map fun p => (p.id, fetchDataURL p.dataURL) := by
      have := List.mem_map_of_mem (fun p : BlobDump => (p.id, fetchDataURL p.dataURL)) hdmem
      rwa [show (fun p : BlobDump => (p.id, fetchDataURL p.dataURL))
          ⟨i, readAsDataURL b⟩ = (i, fetchDataURL (readAsDataURL b)) from rfl, hbb] at this
    have hlast : lastWith Prod.fst i
        (dumps.map fun p => (p.id, fetchDataURL p.dataURL)) = some (i, b) :=
      lastWith_of_mem Prod.fst i _ (i, b) hpmem rfl hpairs
    show getPhotoBlob (keyedPutFold Prod.fst []
        (dumps.map fun p => (p.id, fetchDataURL p.dataURL))) i = some b
    rw [getPhotoBlob, keyedLookup_keyedPutFold, hlast]
    rfl

/-- Witness for C1 at the spec's example: one entry referencing `p1` and a
stored blob `C`; after export and import into a fresh store, `loadAll`
returns exactly that entry and `p1` reads back as `C`. -/
theorem export_import_roundtrip_witness :
    getAllRestaurants (importJsonFile ⟨[], []⟩
        (archiveDoc (exportJson [entryA] [("p1", blobC)]))).1 = [entryA] ∧
    getPhotoBlob (importJsonFile ⟨[], []⟩
        (archiveDoc (exportJson [entryA] [("p1", blobC)]))).1.photos "p1" =
      some blobC := by
  have h := export_import_roundtrip [entryA] [("p1", blobC)] (by decide) (by decide)
  exact ⟨h.1, h.2 "p1" blobC
    ⟨entryA, by decide, ⟨"p1", "", none⟩, by decide, rfl⟩ (by decide)⟩

/-- C3: a stored blob `p2` that no entry references survives an
export-then-import of the journal into the same store, and its presence
does not make the import of the unrelated entries fail: the import
completes with its success signal and the record store still holds
exactly the journal. -/
theorem orphan_blob_tolerated (rs : List Entry) (bs : List BlobRow)
    (p2 : String) (B : PBlob)
    (hnd : (rs.map Entry.id).Nodup)
    (hp2 : getPhotoBlob bs p2 = some B)
    (horphan : ∀ r ∈ rs, ∀ ph ∈ r.photos, ph.id ≠ p2) :
    getPhotoBlob (importJsonFile ⟨rs, bs⟩
        (archiveDoc (exportJson rs bs))).1.photos p2 = some B ∧
    (importJsonFile ⟨rs, bs⟩ (archiveDoc (exportJson rs bs))).2 = some "Imported" ∧
    getAllRestaurants (importJsonFile ⟨rs, bs⟩
        (archiveDoc (exportJson rs bs))).1 = rs := by
  set allIds := insertionDedup (rs.flatMap fun r => r.photos.map (·.id)) with hall
  set f : String → Option BlobDump :=
    fun i => (getPhotoBlob bs i).map fun b => ⟨i, readAsDataURL b⟩ with hfdef
  set dumps := allIds.filterMap f with hdumps
  have harch : archiveDoc (exportJson rs bs) = ⟨some rs, some dumps⟩ := rfl
  rw [harch, importJsonFile_eq]
  refine ⟨?_, rfl, ?_⟩
  · have hnotouch : ∀ pr ∈ (dumps.map fun p => (p.id, fetchDataURL p.dataURL)),
        (Prod.fst pr) ≠ p2 := by
      intro pr hpr
      obtain ⟨d, hd, rfl⟩ := List.mem_map.mp hpr
      obtain ⟨a, ha, hfa⟩ := List.mem_filterMap.mp (hdumps ▸ hd)
      have hd' : ((getPhotoBlob bs a).map
          fun b => (⟨a, readAsDataURL b⟩ : BlobDump)) = some d := hfa
      have hda : d.id = a := by
        cases hg : getPhotoBlob bs a with
        | none => rw [hg] at hd'; simp at hd'
        | some b' =>
            rw [hg] at hd'
            obtain rfl : (⟨a, readAsDataURL b'⟩ : BlobDump) = d := by simpa using hd'
            rfl
      intro hc
      rw [hall, mem_insertionDedup] at ha
      obtain ⟨r, hr, hmem⟩ := List.mem_flatMap.mp ha
      obtain ⟨ph, hph, hpha⟩ := List.mem_map.mp hmem
      refine horphan r hr ph hph ?_
      rw [hpha, ← hda]
      exact hc
    show getPhotoBlob (keyedPutFold Prod.fst bs
        (dumps.map fun p => (p.id, fetchDataURL p.dataURL))) p2 = some B
    rw [getPhotoBlob, keyedLookup_keyedPutFold,
        lastWith_eq_none Prod.fst p2 _ hnotouch]
    exact hp2
  · show putRestaurants rs rs = rs
    rw [putRestaurants_eq_fold]
    exact keyedPutFold_self Entry.id rs rs (fun x hx => hx) hnd

/-- Witness for C3: an orphan blob `p2` survives export/import of a
one-entry journal that never references it, and the import succeeds. -/
theorem orphan_blob_tolerated_witness :
    getPhotoBlob (importJsonFile ⟨[entryB], [("p2", blobD)]⟩
        (archiveDoc (exportJson [entryB] [("p2", blobD)]))).1.photos "p2" =
      some blobD ∧
    (importJsonFile ⟨[entryB], [("p2", blobD)]⟩
        (archiveDoc (exportJson [entryB] [("p2", blobD)]))).2 = some "Imported" ∧
    getAllRestaurants (importJsonFile ⟨[entryB], [("p2", blobD)]⟩
        (archiveDoc (exportJson [entryB] [("p2", blobD)]))).1 = [entryB] :=
  orphan_blob_tolerated [entryB] [("p2", blobD)] "p2" blobD
    (by decide) (by decide) (by decide)

/-- C6 (code bug, concrete run): deleting the only entry does cascade the
blob delete — `p1` reads back absent — and removes the entry from the
in-memory list, but the record is NOT removed from the durable Record
Store: `deleteRestaurantAll` persists the filtered list through
`putRestaurants`, which only upserts, and the source's own
`deleteRestaurantRow` (which would have removed the row, last conjunct) is
never called; the row for `a` is still stored and `loadAll` still returns
it. -/
theorem deleteRestaurantAll_leaves_record_row :
    ((deleteRestaurantAll ⟨[entryA], ⟨[entryA], [("p1", blobC)]⟩⟩ "a").ui = []) ∧
    (getPhotoBlob (deleteRestaurantAll ⟨[entryA], ⟨[entryA], [("p1", blobC)]⟩⟩
        "a").store.photos "p1" = none) ∧
    (recLookup (deleteRestaurantAll ⟨[entryA], ⟨[entryA], [("p1", blobC)]⟩⟩
        "a").store.restaurants "a" = some entryA) ∧
    (deleteRestaurantRow [entryA] "a" = []) := by
  decide

/-- C9 amended: the invariant that `visits` is never empty once saved is preserved
by creating and by edit-saving an entry (in both the in-memory list and
the durable store), and by an import whose archive entries themselves all
carry non-empty visits; the import path itself validates nothing, so an
archive entry with empty visits is written verbatim (see the
counterexample). -/
theorem visits_nonempty_preserved (app : AppState) (draft : Draft)
    (now : Int) (newId : String)
    (hui : ∀ e ∈ app.ui, e.visits ≠ [])
    (hst : ∀ e ∈ app.store.restaurants, e.visits ≠ []) :
    ((∀ e ∈ (saveDraft app draft now newId).ui, e.visits ≠ []) ∧
     (∀ e ∈ (saveDraft app draft now newId).store.restaurants, e.visits ≠ [])) ∧
    (∀ (st : Store) (rs : List Entry) (ps : List BlobDump),
      (∀ e ∈ st.restaurants, e.visits ≠ []) →
      (∀ e ∈ rs, e.visits ≠ []) →
      ∀ e ∈ (importJsonFile st ⟨some rs, some ps⟩).1.restaurants, e.visits ≠ []) := by
  constructor
  · rw [saveDraft]
    by_cases hname : draft.name.trim = ""
    · rw [if_pos hname]
      exact ⟨hui, hst⟩
    · rw [if_neg hname]
      have hlist : ∀ e ∈ saveDraftList app.ui draft now newId, e.visits ≠ [] := by
        intro e he
        rw [saveDraftList] at he
        cases hid : draft.id with
        | none =>
            rw [hid] at he
            rcases List.mem_cons.mp he with rfl | he'
            · show (if draft.visits.isEmpty then [now] else draft.visits) ≠ []
              cases hv : draft.visits.isEmpty with
              | true => simp
              | false =>
                  rw [if_neg (by simp [hv])]
                  exact fun hc => by simp [hc] at hv
            · exact hui e he'
        | some did =>
            rw [hid] at he
            obtain ⟨x, hx, hxe⟩ := List.mem_map.mp he
            by_cases hxid : x.id = did
            · rw [if_pos hxid] at hxe
              rw [← hxe]
              show (if draft.visits.isEmpty then x.visits else draft.visits) ≠ []
              cases hv : draft.visits.isEmpty with
              | true =>
                  rw [if_pos (by simp [hv])]
                  exact hui x hx
              | false =>
                  rw [if_neg (by simp [hv])]
                  exact fun hc => by simp [hc] at hv
            · rw [if_neg hxid] at hxe
              rw [← hxe]
              exact hui x hx
      refine ⟨hlist, ?_⟩
      intro e he
      show e.visits ≠ []
      have hmem : e ∈ putRestaurants app.store.restaurants
          (saveDraftList app.ui draft now newId) := he
      rw [putRestaurants_eq_fold] at hmem
      rcases mem_keyedPutFold Entry.id _ _ e hmem with h | h
      · exact hst e h
      · exact hlist e h
  · intro st rs ps hstr hrs e he
    rw [importJsonFile_eq] at he
    have hmem : e ∈ putRestaurants st.restaurants rs := he
    rw [putRestaurants_eq_fold] at hmem
    rcases mem_keyedPutFold Entry.id _ _ e hmem with h | h
    · exact hstr e h
    · exact hrs e h

/-- Witness for C9's amended theorem: saving a fresh draft with an empty
visits list over a store satisfying the invariant yields lists whose
entries all have non-empty visits. -/
theorem visits_nonempty_preserved_witness :
    (∀ e ∈ (saveDraft ⟨[entryA], ⟨[entryA], []⟩⟩
        ⟨none, "New", 0, "", [], none, none, false, 0, []⟩ 7 "n1").ui,
      e.visits ≠ []) ∧
    (∀ e ∈ (saveDraft ⟨[entryA], ⟨[entryA], []⟩⟩
        ⟨none, "New", 0, "", [], none, none, false, 0, []⟩ 7 "n1").store.restaurants,
      e.visits ≠ []) :=
  (visits_nonempty_preserved ⟨[entryA], ⟨[entryA], []⟩⟩
    ⟨none, "New", 0, "", [], none, none, false, 0, []⟩ 7 "n1"
    (by decide) (by decide)).1

/-- C9 counterexample: importing a crafted archive whose entry carries an
empty `visits` list writes that entry verbatim into the Record Store, so
the import operation does not preserve the invariant. -/
theorem import_empty_visits_counterexample :
    (importJsonFile ⟨[], []⟩ ⟨some [entryNoVisits], some []⟩).1.restaurants =
      [entryNoVisits] ∧ entryNoVisits.visits = [] := by
  decide

/-- Rounding a rational bounded by a natural stays bounded after `toNat`. -/
theorem round_toNat_le (x : ℚ) (m : Nat) (hx : x ≤ (m : ℚ)) :
    (round x).toNat ≤ m := by
  have h1 : round x ≤ round ((m : ℚ)) := by
    rw [round_eq, round_eq]
    exact Int.floor_le_floor (by linarith)
  rw [round_natCast] at h1
  omega

/-- Evaluated form of `compressDims` when the longer edge exceeds the
configured maximum: the scale is below 1, so each edge becomes
`max 1 (round (edge * maxSide / longest))`. -/
theorem compressDims_eval (w h m : Nat) (hwh : m < max w h) (hm : 1 ≤ m) :
    compressDims w h m =
      (max 1 (round ((w : ℚ) * m / ((max w h : ℕ) : ℚ))).toNat,
       max 1 (round ((h : ℚ) * m / ((max w h : ℕ) : ℚ))).toNat) := by
  have hpos : (0 : ℚ) < ((max w h : ℕ) : ℚ) := by
    have h0 : 0 < max w h := by omega
    exact_mod_cast h0
  have hscale : min 1 ((m : ℚ) / ((max w h : ℕ) : ℚ)) =
      (m : ℚ) / ((max w h : ℕ) : ℚ) := by
    apply min_eq_right
    rw [div_le_one hpos]
    exact_mod_cast le_of_lt hwh
  show (max 1 (round ((w : ℚ) * min 1 ((m : ℚ) / ((max w h : ℕ) : ℚ)))).toNat,
        max 1 (round ((h : ℚ) * min 1 ((m : ℚ) / ((max w h : ℕ) : ℚ)))).toNat) = _
  rw [hscale, mul_div_assoc, mul_div_assoc]

/-- The longer edge lands exactly on the configured maximum. -/
theorem compress_edge_long (a m : Nat) (hm : 1 ≤ m) (ha : m < a) :
    max 1 (round ((a : ℚ) * m / (a : ℚ))).toNat = m := by
  have ha0 : (a : ℚ) ≠ 0 := by
    have h0 : 0 < a := by omega
    exact_mod_cast Nat.pos_iff_ne_zero.mp h0
  rw [mul_div_cancel_left₀ _ ha0, round_natCast, Int.toNat_natCast]
  omega

/-- The shorter edge never exceeds the configured maximum. -/
theorem compress_edge_short_le (a b m : Nat) (hm : 1 ≤ m) (ha : m < a)
    (hba : b ≤ a) :
    max 1 (round ((b : ℚ) * m / (a : ℚ))).toNat ≤ m := by
  have hpos : (0 : ℚ) < (a : ℚ) := by
    have h0 : 0 < a := by omega
    exact_mod_cast h0
  have hle : (b : ℚ) * m / a ≤ (m : ℚ) := by
    rw [div_le_iff₀ hpos]
    have hba' : (b : ℚ) ≤ a := by exact_mod_cast hba
    have hm0 : (0 : ℚ) ≤ m := by positivity
    nlinarith
  have := round_toNat_le _ m hle
  omega

/-- C8 amended: when the longer source edge exceeds the configured maximum
side (all dimensions at least 1), the output's longer edge is exactly the
maximum and its shorter edge is the proportionally scaled value rounded to
the nearest integer and then clamped below by 1 — the `Math.max(1, ·)`
clamp the original claim omits. -/
theorem compressDims_spec (w h m : Nat) (hm : 1 ≤ m) (hwh : m < max w h)
    (hmin : 1 ≤ min w h) :
    max (compressDims w h m).1 (compressDims w h m).2 = m ∧
    min (compressDims w h m).1 (compressDims w h m).2 =
      max 1 (round (((min w h : Nat) : ℚ) * m / ((max w h : ℕ) : ℚ))).toNat := by
  have _hmin := hmin
  rw [compressDims_eval w h m hwh hm]
  rcases le_total h w with hc | hc
  · have hmax : max w h = w := Nat.max_eq_left hc
    have hminn : min w h = h := Nat.min_eq_right hc
    rw [hmax, hminn]
    have hlong := compress_edge_long w m hm (by omega)
    have hshort := compress_edge_short_le w h m hm (by omega) hc
    simp only [Prod.fst, Prod.snd]
    rw [hlong]
    exact ⟨Nat.max_eq_left hshort, Nat.min_eq_right hshort⟩
  · have hmax : max w h = h := Nat.max_eq_right hc
    have hminn : min w h = w := Nat.min_eq_left hc
    rw [hmax, hminn]
    have hlong := compress_edge_long h m hm (by omega)
    have hshort := compress_edge_short_le h w m hm (by omega) hc
    simp only [Prod.fst, Prod.snd]
    rw [hlong]
    exact ⟨Nat.max_eq_right hshort, Nat.min_eq_left hshort⟩

/-- The rounded proportional shorter edge of a 10000-by-1 source at max
side 1600 is 0. -/
theorem round_short_edge_zero : round ((1 : ℚ) * 1600 / 10000) = 0 := by
  rw [round_eq]
  norm_num

/-- C8 counterexample: for a 10000-by-1 source and max side 1600 the code
produces the dimensions (1600, 1) — the shorter edge is clamped to 1 by
`Math.max(1, ·)` — while the proportional value rounded to the nearest
integer is 0, so the claim's description of the shorter edge fails. -/
theorem compressDims_counterexample :
    compressDims 10000 1 1600 = (1600, 1) ∧
    (round ((1 : ℚ) * 1600 / 10000)).toNat = 0 := by
  constructor
  · rw [compressDims_eval 10000 1 1600 (by norm_num) (by norm_num)]
    norm_num [round_eq]
    decide
  · rw [round_short_edge_zero]
    rfl

/-- Witness for C8's amended theorem at the spec's example: 3000-by-2000 at
max side 1600 resizes to longer edge exactly 1600 and shorter edge 1067. -/
theorem compressDims_spec_witness :
    (max (compressDims 3000 2000 1600).1 (compressDims 3000 2000 1600).2 = 1600 ∧
     min (compressDims 3000 2000 1600).1 (compressDims 3000 2000 1600).2 =
       max 1 (round (((min 3000 2000 : Nat) : ℚ) * 1600 /
         ((max 3000 2000 : ℕ) : ℚ))).toNat) ∧
    compressDims 3000 2000 1600 = (1600, 1067) := by
  refine ⟨compressDims_spec 3000 2000 1600 (by norm_num) (by norm_num) (by norm_num), ?_⟩
  rw [compressDims_eval 3000 2000 1600 (by norm_num) (by norm_num)]
  norm_num [round_eq]
  decide
